import Mathlib

/-!
Verification of the `statemachine` Go package: a generic transition-table
engine (`StateMachine[S, E]`) whose core data is the nested map
`transitions : map[S]map[E]S`.  We embed the nested Go maps as nested
association lists with first-match lookup and replace-first insertion,
which matches Go map read/write semantics key-wise, and translate each
exported method of the package directly.
-/

/-- Go map read `m[k]`: first-match association-list lookup. -/
def lookupA {α β : Type} [DecidableEq α] : List (α × β) → α → Option β
  | [], _ => none
  | (k, v) :: rest, a => if k = a then some v else lookupA rest a

/-- Go map write `m[k] = v`: replace the entry for `k` if present, else append. -/
def insertA {α β : Type} [DecidableEq α] : List (α × β) → α → β → List (α × β)
  | [], a, b => [(a, b)]
  | (k, v) :: rest, a, b =>
    if k = a then (a, b) :: rest else (k, v) :: insertA rest a b

/-- The `StateMachine[S, E]` struct: `transitions map[S]map[E]S`. -/
structure StateMachine (S E : Type) where
  transitions : List (S × List (E × S))
deriving DecidableEq

/-- `Transition[S, E]`: a single transition rule `{From, Event, To}`. -/
structure Transition (S E : Type) where
  From : S
  Event : E
  To : S
deriving DecidableEq

/-- The error returned by `Transition` on a miss (the formatted
"invalid transition" error names the event and the from-state). -/
structure InvalidTransition (S E : Type) where
  fromState : S
  event : E
deriving DecidableEq

/-- The error returned by `ValidateTransitionPath` on a miss: the
"invalid path at step %d" wrapper around the `Transition` error. -/
structure PathError (S E : Type) where
  stepIndex : Nat
  cause : InvalidTransition S E
deriving DecidableEq

/-- `NewStateMachine`: empty transition table. -/
def NewStateMachine (S E : Type) : StateMachine S E := ⟨[]⟩

variable {S E : Type}

/-- `AddTransition`: create the inner map if absent, then write
`sm.transitions[from][event] = to`. -/
def StateMachine.AddTransition [DecidableEq S] [DecidableEq E]
    (sm : StateMachine S E) (f : S) (event : E) (t : S) : StateMachine S E :=
  match lookupA sm.transitions f with
  | none => ⟨insertA sm.transitions f [(event, t)]⟩
  | some inner => ⟨insertA sm.transitions f (insertA inner event t)⟩

/-- `AddTransitions`: apply `AddTransition` to each rule in order. -/
def StateMachine.AddTransitions [DecidableEq S] [DecidableEq E]
    (sm : StateMachine S E) (ts : List (Transition S E)) : StateMachine S E :=
  ts.foldl (fun m t => m.AddTransition t.From t.Event t.To) sm

/-- `CanTransition`: true iff the inner map exists and has the event. -/
def StateMachine.CanTransition [DecidableEq S] [DecidableEq E]
    (sm : StateMachine S E) (f : S) (event : E) : Bool :=
  match lookupA sm.transitions f with
  | some inner => (lookupA inner event).isSome
  | none => false

/-- `Transition` (the method): on a hit return the new state and no error;
on a miss return the zero value of `S` (modelled by `default`) and an
`InvalidTransition` error. -/
def StateMachine.Transition [DecidableEq S] [DecidableEq E] [Inhabited S]
    (sm : StateMachine S E) (f : S) (event : E) :
    S × Option (InvalidTransition S E) :=
  match lookupA sm.transitions f with
  | some inner =>
    match lookupA inner event with
    | some newState => (newState, none)
    | none => (default, some ⟨f, event⟩)
  | none => (default, some ⟨f, event⟩)

/-- `GetValidEvents`: the keys of the inner map, `[]` if it is absent. -/
def StateMachine.GetValidEvents [DecidableEq S]
    (sm : StateMachine S E) (f : S) : List E :=
  match lookupA sm.transitions f with
  | some inner => inner.map Prod.fst
  | none => []

/-- `GetNextState`: the `(state, ok)` lookup; `(zero, false)` on a miss. -/
def StateMachine.GetNextState [DecidableEq S] [DecidableEq E] [Inhabited S]
    (sm : StateMachine S E) (f : S) (event : E) : S × Bool :=
  match lookupA sm.transitions f with
  | some inner =>
    match lookupA inner event with
    | some newState => (newState, true)
    | none => (default, false)
  | none => (default, false)

/-- `IsTerminalState`: `!exists || len(transitions) == 0`. -/
def StateMachine.IsTerminalState [DecidableEq S]
    (sm : StateMachine S E) (s : S) : Bool :=
  match lookupA sm.transitions s with
  | none => true
  | some inner => inner.length == 0

/-- The loop body of `ValidateTransitionPath`: `i` counts the events
already consumed, so a failure at the head is reported at step `i + 1`. -/
def StateMachine.validatePathGo [DecidableEq S] [DecidableEq E] [Inhabited S]
    (sm : StateMachine S E) :
    S → List E → Nat → S × Option (PathError S E)
  | current, [], _ => (current, none)
  | current, e :: es, i =>
    match sm.Transition current e with
    | (newState, none) => sm.validatePathGo newState es (i + 1)
    | (_, some err) => (current, some ⟨i + 1, err⟩)

/-- `ValidateTransitionPath`: fold `Transition` over the events from
`start`, failing at the first invalid step with its 1-based index. -/
def StateMachine.ValidateTransitionPath [DecidableEq S] [DecidableEq E] [Inhabited S]
    (sm : StateMachine S E) (start : S) (events : List E) :
    S × Option (PathError S E) :=
  sm.validatePathGo start events 0

/-- `GetAllStates` helper: append a state unless already collected
(the `seen` map of the Go code is the membership check). -/
def addState [DecidableEq S] (st : List S) (x : S) : List S :=
  if x ∈ st then st else st ++ [x]

/-- `GetAllStates` inner loop: one source state and all its destinations. -/
def collectRow [DecidableEq S] (st : List S) (p : S × List (E × S)) : List S :=
  p.2.foldl (fun acc q => addState acc q.2) (addState st p.1)

/-- `GetAllStates`: every source key and every destination value, each
appended the first time it is seen. -/
def StateMachine.GetAllStates [DecidableEq S]
    (sm : StateMachine S E) : List S :=
  sm.transitions.foldl collectRow []

/-- `GetTransitions`: the outgoing edges of `f` (a copy in Go; a value
here), empty if absent. -/
def StateMachine.GetTransitions [DecidableEq S]
    (sm : StateMachine S E) (f : S) : List (E × S) :=
  match lookupA sm.transitions f with
  | some inner => inner
  | none => []

/-- The registered edge relation: the composed lookup
`transitions[f][e]`, the semantic content of the table. -/
def StateMachine.lookupEdge [DecidableEq S] [DecidableEq E]
    (sm : StateMachine S E) (f : S) (e : E) : Option S :=
  (lookupA sm.transitions f).bind (fun inner => lookupA inner e)

/-- Specification-side strict left fold of the edge lookup over an event
sequence: `none` as soon as any step has no registered edge. -/
def StateMachine.statesAfter [DecidableEq S] [DecidableEq E]
    (sm : StateMachine S E) (s : S) (es : List E) : Option S :=
  es.foldl (fun acc e => acc.bind fun t => sm.lookupEdge t e) (some s)

/-- Specification-side one-at-a-time registration, for comparison with
`AddTransitions`. -/
def registerEach [DecidableEq S] [DecidableEq E]
    (sm : StateMachine S E) : List (Transition S E) → StateMachine S E
  | [] => sm
  | t :: ts => registerEach (sm.AddTransition t.From t.Event t.To) ts

/-- A table built from scratch by registering the given rules in order. -/
def buildMachine [DecidableEq S] [DecidableEq E]
    (ts : List (Transition S E)) : StateMachine S E :=
  (NewStateMachine S E).AddTransitions ts

/-- Structural invariant maintained by the construction API: outer keys
are distinct, and every inner map is nonempty with distinct keys. -/
def StateMachine.Wf (sm : StateMachine S E) : Prop :=
  (sm.transitions.map Prod.fst).Nodup ∧
  ∀ p ∈ sm.transitions, p.2 ≠ [] ∧ (p.2.map Prod.fst).Nodup

instance [DecidableEq S] [DecidableEq E] (sm : StateMachine S E) :
    Decidable sm.Wf := by
  unfold StateMachine.Wf
  infer_instance

/-! ### Lookup and insertion lemmas -/

theorem lookupA_insertA {α β : Type} [DecidableEq α]
    (l : List (α × β)) (k a : α) (b : β) :
    lookupA (insertA l k b) a = if k = a then some b else lookupA l a := by
  induction l with
  | nil => simp [insertA, lookupA]
  | cons p rest ih =>
    obtain ⟨k', v'⟩ := p
    simp only [insertA]
    by_cases hk : k' = k
    · subst hk
      by_cases ha : k' = a <;> simp [lookupA, ha]
    · rw [if_neg hk]
      by_cases h1 : k' = a
      · have h2 : ¬k = a := fun hh => hk (h1.trans hh.symm)
        simp [lookupA, h1, h2]
      · simp [lookupA, h1, ih]

theorem mem_of_lookupA {α β : Type} [DecidableEq α] {l : List (α × β)}
    {a : α} {b : β} (h : lookupA l a = some b) : (a, b) ∈ l := by
  induction l with
  | nil => simp [lookupA] at h
  | cons p rest ih =>
    obtain ⟨k, v⟩ := p
    simp only [lookupA] at h
    by_cases hk : k = a
    · rw [if_pos hk] at h
      subst hk
      cases h
      exact List.mem_cons_self _ _
    · rw [if_neg hk] at h
      exact List.mem_cons_of_mem _ (ih h)

theorem lookupA_of_mem_nodup {α β : Type} [DecidableEq α] {l : List (α × β)}
    (hnd : (l.map Prod.fst).Nodup) {a : α} {b : β} (h : (a, b) ∈ l) :
    lookupA l a = some b := by
  induction l with
  | nil => simp at h
  | cons p rest ih =>
    obtain ⟨k, v⟩ := p
    simp only [List.map_cons, List.nodup_cons] at hnd
    rcases List.mem_cons.mp h with h1 | h1
    · cases h1
      simp [lookupA]
    · have hne : k ≠ a := by
        intro he
        subst he
        exact hnd.1 (List.mem_map.mpr ⟨(k, b), h1, rfl⟩)
      simp only [lookupA, if_neg hne]
      exact ih hnd.2 h1

/-! ### The three lookup operations, expressed through `lookupEdge` -/

theorem canTransition_eq_lookupEdge [DecidableEq S] [DecidableEq E]
    (sm : StateMachine S E) (f : S) (e : E) :
    sm.CanTransition f e = (sm.lookupEdge f e).isSome := by
  unfold StateMachine.CanTransition StateMachine.lookupEdge
  cases lookupA sm.transitions f <;> simp

theorem transition_eq_lookupEdge [DecidableEq S] [DecidableEq E] [Inhabited S]
    (sm : StateMachine S E) (f : S) (e : E) :
    sm.Transition f e =
      (match sm.lookupEdge f e with
      | some t => (t, none)
      | none => (default, some ⟨f, e⟩)) := by
  unfold StateMachine.Transition StateMachine.lookupEdge
  cases lookupA sm.transitions f with
  | none => simp
  | some inner => cases lookupA inner e <;> simp

theorem getNextState_eq_lookupEdge [DecidableEq S] [DecidableEq E] [Inhabited S]
    (sm : StateMachine S E) (f : S) (e : E) :
    sm.GetNextState f e =
      (match sm.lookupEdge f e with
      | some t => (t, true)
      | none => (default, false)) := by
  unfold StateMachine.GetNextState StateMachine.lookupEdge
  cases lookupA sm.transitions f with
  | none => simp
  | some inner => cases lookupA inner e <;> simp

/-! ### Registration lemmas -/

theorem lookupEdge_addTransition [DecidableEq S] [DecidableEq E]
    (sm : StateMachine S E) (f : S) (e : E) (t : S) (f' : S) (e' : E) :
    (sm.AddTransition f e t).lookupEdge f' e' =
      if f = f' ∧ e = e' then some t else sm.lookupEdge f' e' := by
  unfold StateMachine.AddTransition StateMachine.lookupEdge
  cases h : lookupA sm.transitions f with
  | none =>
    simp only [lookupA_insertA]
    by_cases hf : f = f'
    · subst hf
      simp only [if_pos rfl, h, lookupA]
      by_cases he : e = e'
      · subst he
        simp [lookupA]
      · simp [lookupA, he]
    · simp [hf]
  | some inner =>
    simp only [lookupA_insertA]
    by_cases hf : f = f'
    · subst hf
      simp only [if_pos rfl, h, Option.some_bind]
      by_cases he : e = e'
      · subst he
        simp [lookupA_insertA]
      · simp [lookupA_insertA, he]
    · simp [hf]

/-! ### Folding lemmas for `statesAfter` -/

theorem statesAfter_none_fold [DecidableEq S] [DecidableEq E]
    (sm : StateMachine S E) (es : List E) :
    es.foldl (fun acc e => acc.bind fun t => sm.lookupEdge t e) none = none := by
  induction es with
  | nil => rfl
  | cons e es ih => simpa using ih

theorem statesAfter_cons [DecidableEq S] [DecidableEq E]
    (sm : StateMachine S E) (s : S) (e : E) (es : List E) :
    sm.statesAfter s (e :: es) =
      (match sm.lookupEdge s e with
      | some u => sm.statesAfter u es
      | none => none) := by
  unfold StateMachine.statesAfter
  simp only [List.foldl_cons, Option.some_bind]
  cases sm.lookupEdge s e with
  | none => exact statesAfter_none_fold sm es
  | some u => rfl

theorem statesAfter_singleton [DecidableEq S] [DecidableEq E]
    (sm : StateMachine S E) (s : S) (e : E) :
    sm.statesAfter s [e] = sm.lookupEdge s e := by
  rw [statesAfter_cons]
  cases sm.lookupEdge s e <;> rfl

theorem statesAfter_append [DecidableEq S] [DecidableEq E]
    (sm : StateMachine S E) (s : S) (l1 l2 : List E) :
    sm.statesAfter s (l1 ++ l2) =
      (match sm.statesAfter s l1 with
      | some u => sm.statesAfter u l2
      | none => none) := by
  cases h : sm.statesAfter s l1 with
  | none =>
    simp only
    unfold StateMachine.statesAfter at h ⊢
    rw [List.foldl_append, h]
    exact statesAfter_none_fold sm l2
  | some u =>
    simp only
    unfold StateMachine.statesAfter at h ⊢
    rw [List.foldl_append, h]

theorem statesAfter_take_isSome [DecidableEq S] [DecidableEq E]
    (sm : StateMachine S E) (s : S) (es : List E) (t : S)
    (h : sm.statesAfter s es = some t) (k : Nat) :
    (sm.statesAfter s (es.take k)).isSome = true := by
  have happ := statesAfter_append sm s (es.take k) (es.drop k)
  rw [List.take_append_drop, h] at happ
  cases hk : sm.statesAfter s (es.take k) with
  | none =>
    rw [hk] at happ
    simp at happ
  | some u => simp

/-! ### Characterization of the `ValidateTransitionPath` loop -/

theorem validatePathGo_success_iff [DecidableEq S] [DecidableEq E] [Inhabited S]
    (sm : StateMachine S E) (es : List E) (s : S) (i : Nat) (t : S) :
    sm.validatePathGo s es i = (t, none) ↔ sm.statesAfter s es = some t := by
  induction es generalizing s i with
  | nil =>
    simp [StateMachine.validatePathGo, StateMachine.statesAfter, Prod.ext_iff]
  | cons e es ih =>
    rw [statesAfter_cons]
    simp only [StateMachine.validatePathGo]
    rw [transition_eq_lookupEdge]
    cases h : sm.lookupEdge s e with
    | some u =>
      simp only
      exact ih u (i + 1)
    | none =>
      simp only
      constructor
      · intro hc
        simp [Prod.ext_iff] at hc
      · intro hc
        simp at hc

theorem validatePathGo_fail [DecidableEq S] [DecidableEq E] [Inhabited S]
    (sm : StateMachine S E) (es : List E) (s : S) (i : Nat) (st : S)
    (pe : PathError S E) (h : sm.validatePathGo s es i = (st, some pe)) :
    i + 1 ≤ pe.stepIndex ∧ pe.stepIndex ≤ i + es.length ∧
    st = pe.cause.fromState ∧
    sm.statesAfter s (es.take (pe.stepIndex - 1 - i)) = some st ∧
    es[pe.stepIndex - 1 - i]? = some pe.cause.event ∧
    sm.lookupEdge pe.cause.fromState pe.cause.event = none := by
  induction es generalizing s i with
  | nil => simp [StateMachine.validatePathGo, Prod.ext_iff] at h
  | cons e es ih =>
    simp only [StateMachine.validatePathGo] at h
    rw [transition_eq_lookupEdge] at h
    cases hl : sm.lookupEdge s e with
    | none =>
      rw [hl] at h
      simp only [Prod.mk.injEq, Option.some.injEq] at h
      obtain ⟨h1, h2⟩ := h
      subst h1
      subst h2
      refine ⟨le_refl _, by simp, rfl, ?_, ?_, hl⟩
      · simp [StateMachine.statesAfter]
      · simp
    | some u =>
      rw [hl] at h
      simp only at h
      obtain ⟨h1, h2, h3, h4, h5, h6⟩ := ih u (i + 1) h
      have hstep : 1 ≤ pe.stepIndex - 1 - i := by omega
      have hidx : pe.stepIndex - 1 - i = (pe.stepIndex - 1 - (i + 1)) + 1 := by
        omega
      refine ⟨by omega, by simp; omega, h3, ?_, ?_, h6⟩
      · rw [hidx, List.take_succ_cons, statesAfter_cons, hl]
        exact h4
      · rw [hidx, List.getElem?_cons_succ]
        exact h5

theorem lookupEdge_addTransitions_untouched [DecidableEq S] [DecidableEq E]
    (sm : StateMachine S E) (ts : List (Transition S E)) (f : S) (e : E)
    (h : ∀ t ∈ ts, ¬(t.From = f ∧ t.Event = e)) :
    (sm.AddTransitions ts).lookupEdge f e = sm.lookupEdge f e := by
  induction ts generalizing sm with
  | nil => rfl
  | cons t ts ih =>
    have hstep : sm.AddTransitions (t :: ts) =
        (sm.AddTransition t.From t.Event t.To).AddTransitions ts := rfl
    rw [hstep, ih (sm.AddTransition t.From t.Event t.To)
      (fun u hu => h u (List.mem_cons_of_mem _ hu))]
    rw [lookupEdge_addTransition, if_neg (h t (List.mem_cons_self _ _))]

/-- A concrete table over `Nat` states and events, used as the running
example: edges 0 --1--> 2 and 2 --3--> 4. -/
def mW : StateMachine Nat Nat := buildMachine [⟨0, 1, 2⟩, ⟨2, 3, 4⟩]

/-- C1: `ValidateTransitionPath` is the strict left fold of the transition
lookup over the event sequence: it returns `(t, none)` exactly when the
fold over all events reaches `t`; it succeeds exactly when every prefix
folds successfully; and on failure the reported `stepIndex` is the
1-based position of the first event with no registered transition from
the then-current state. -/
theorem c1_path_fold [DecidableEq S] [DecidableEq E] [Inhabited S]
    (sm : StateMachine S E) (s : S) (es : List E) :
    (∀ t, sm.ValidateTransitionPath s es = (t, none) ↔
      sm.statesAfter s es = some t) ∧
    ((sm.ValidateTransitionPath s es).2 = none ↔
      ∀ k, k ≤ es.length → (sm.statesAfter s (es.take k)).isSome = true) ∧
    (∀ st pe, sm.ValidateTransitionPath s es = (st, some pe) →
      1 ≤ pe.stepIndex ∧ pe.stepIndex ≤ es.length ∧
      st = pe.cause.fromState ∧
      sm.statesAfter s (es.take (pe.stepIndex - 1)) = some st ∧
      es[pe.stepIndex - 1]? = some pe.cause.event ∧
      sm.lookupEdge pe.cause.fromState pe.cause.event = none) := by
  have hfail : ∀ st pe, sm.ValidateTransitionPath s es = (st, some pe) →
      1 ≤ pe.stepIndex ∧ pe.stepIndex ≤ es.length ∧
      st = pe.cause.fromState ∧
      sm.statesAfter s (es.take (pe.stepIndex - 1)) = some st ∧
      es[pe.stepIndex - 1]? = some pe.cause.event ∧
      sm.lookupEdge pe.cause.fromState pe.cause.event = none := by
    intro st pe h
    obtain ⟨h1, h2, h3, h4, h5, h6⟩ := validatePathGo_fail sm es s 0 st pe h
    rw [Nat.sub_zero] at h4 h5
    exact ⟨by omega, by omega, h3, h4, h5, h6⟩
  refine ⟨fun t => validatePathGo_success_iff sm es s 0 t, ⟨?_, ?_⟩, hfail⟩
  · intro h k hk
    rcases hp : sm.ValidateTransitionPath s es with ⟨a, o⟩
    rw [hp] at h
    cases o with
    | some pe => simp at h
    | none =>
      have hsa : sm.statesAfter s es = some a :=
        (validatePathGo_success_iff sm es s 0 a).mp hp
      exact statesAfter_take_isSome sm s es a hsa k
  · intro h
    rcases hp : sm.ValidateTransitionPath s es with ⟨a, o⟩
    cases o with
    | none => rfl
    | some pe =>
      exfalso
      obtain ⟨h1, h2, h3, h4, h5, h6⟩ := hfail a pe hp
      obtain ⟨j, hj⟩ : ∃ j, pe.stepIndex = j + 1 := ⟨pe.stepIndex - 1, by omega⟩
      rw [hj] at h2 h4 h5
      simp only [Nat.add_sub_cancel] at h4 h5
      have htake : es.take (j + 1) = es.take j ++ [pe.cause.event] := by
        rw [List.take_succ, h5]
        rfl
      have hnone : sm.statesAfter s (es.take (j + 1)) = none := by
        rw [htake, statesAfter_append, h4]
        show sm.statesAfter a [pe.cause.event] = none
        rw [statesAfter_singleton, h3]
        exact h6
      have hk := h (j + 1) h2
      rw [hnone] at hk
      simp at hk

theorem c1_witness :
    mW.statesAfter 0 ([1, 1].take 1) = some 2 ∧ mW.lookupEdge 2 1 = none := by
  have h := (c1_path_fold mW 0 [1, 1]).2.2 2 ⟨2, ⟨2, 1⟩⟩ (by decide)
  exact ⟨h.2.2.2.1, h.2.2.2.2.2⟩

/-- C7: validating the empty event sequence returns the start state
unchanged, with no error. -/
theorem c7_empty_path [DecidableEq S] [DecidableEq E] [Inhabited S]
    (sm : StateMachine S E) (s : S) :
    sm.ValidateTransitionPath s [] = (s, none) := rfl

/-- C10: when path validation fails, the state returned alongside the
error is the then-current state at the failing step -- the state reached
after the first `stepIndex - 1` successful steps, and the start state
itself when `stepIndex = 1`. -/
theorem c10_path_failure_state [DecidableEq S] [DecidableEq E] [Inhabited S]
    (sm : StateMachine S E) (s : S) (es : List E) (st : S)
    (pe : PathError S E)
    (h : sm.ValidateTransitionPath s es = (st, some pe)) :
    st = pe.cause.fromState ∧
    sm.statesAfter s (es.take (pe.stepIndex - 1)) = some st ∧
    (pe.stepIndex = 1 → st = s) := by
  obtain ⟨h1, h2, h3, h4, h5, h6⟩ := validatePathGo_fail sm es s 0 st pe h
  rw [Nat.sub_zero] at h4
  refine ⟨h3, h4, ?_⟩
  intro hone
  rw [hone] at h4
  simp [StateMachine.statesAfter] at h4
  exact h4.symm

theorem c10_witness :
    (2 : Nat) = 2 ∧ mW.statesAfter 0 ([1, 1].take 1) = some 2 ∧
      ((2 : Nat) = 1 → (2 : Nat) = 0) :=
  c10_path_failure_state mW 0 [1, 1] 2 ⟨2, ⟨2, 1⟩⟩ (by decide)

/-- C9: on a miss, `Transition` returns the zero value of the state type
(modelled by `default`) alongside the `InvalidTransition` error, not the
input from-state. -/
theorem c9_transition_miss_zero [DecidableEq S] [DecidableEq E] [Inhabited S]
    (sm : StateMachine S E) (f : S) (e : E)
    (h : sm.lookupEdge f e = none) :
    sm.Transition f e = (default, some ⟨f, e⟩) := by
  rw [transition_eq_lookupEdge, h]

theorem c9_witness :
    mW.Transition 5 7 = (default, some ⟨5, 7⟩) ∧ (default : Nat) ≠ 5 :=
  ⟨c9_transition_miss_zero mW 5 7 (by decide), by decide⟩

/-- C3: last write wins -- after registering (s, e, t1) and then
(s, e, t2), `Transition` yields t2 with no error and `CanTransition` is
true.  (`AddTransition` is a total function of the table, so
registration, including re-registration, cannot fail.) -/
theorem c3_last_write_wins [DecidableEq S] [DecidableEq E] [Inhabited S]
    (sm : StateMachine S E) (s : S) (e : E) (t1 t2 : S) :
    ((sm.AddTransition s e t1).AddTransition s e t2).Transition s e
        = (t2, none) ∧
    ((sm.AddTransition s e t1).AddTransition s e t2).CanTransition s e
        = true := by
  have hl : ((sm.AddTransition s e t1).AddTransition s e t2).lookupEdge s e
      = some t2 := by
    rw [lookupEdge_addTransition]
    simp
  constructor
  · rw [transition_eq_lookupEdge, hl]
  · rw [canTransition_eq_lookupEdge, hl]
    rfl

/-- C2: for a (fromState, event) pair never registered while building the
table, the three lookups agree on the miss: `CanTransition` is false,
`Transition` fails with the `InvalidTransition` error (and the zero
state), and `GetNextState` reports absence; moreover a from-state absent
from the outer map yields false from `CanTransition`, not an error. -/
theorem c2_miss_agreement [DecidableEq S] [DecidableEq E] [Inhabited S] :
    (∀ (ts : List (Transition S E)) (f : S) (e : E),
      (∀ t ∈ ts, ¬(t.From = f ∧ t.Event = e)) →
      (buildMachine ts).CanTransition f e = false ∧
      (buildMachine ts).Transition f e = (default, some ⟨f, e⟩) ∧
      (buildMachine ts).GetNextState f e = (default, false)) ∧
    (∀ (sm : StateMachine S E) (f : S) (e : E),
      lookupA sm.transitions f = none → sm.CanTransition f e = false) := by
  constructor
  · intro ts f e h
    have hmiss : (buildMachine ts).lookupEdge f e = none := by
      unfold buildMachine
      rw [lookupEdge_addTransitions_untouched _ _ _ _ h]
      rfl
    refine ⟨?_, ?_, ?_⟩
    · rw [canTransition_eq_lookupEdge, hmiss]
      rfl
    · rw [transition_eq_lookupEdge, hmiss]
    · rw [getNextState_eq_lookupEdge, hmiss]
  · intro sm f e h
    simp [StateMachine.CanTransition, h]

theorem c2_witness :
    (mW.CanTransition 5 7 = false ∧
      mW.Transition 5 7 = (default, some ⟨5, 7⟩) ∧
      mW.GetNextState 5 7 = (default, false)) ∧
    mW.CanTransition 9 1 = false := by
  constructor
  · exact c2_miss_agreement.1 [⟨0, 1, 2⟩, ⟨2, 3, 4⟩] 5 7 (by decide)
  · exact c2_miss_agreement.2 mW 9 1 (by decide)

theorem lookupA_isSome_iff_mem_keys {α β : Type} [DecidableEq α]
    (l : List (α × β)) (a : α) :
    (lookupA l a).isSome = true ↔ a ∈ l.map Prod.fst := by
  induction l with
  | nil => simp [lookupA]
  | cons p rest ih =>
    obtain ⟨k, v⟩ := p
    by_cases hk : k = a
    · subst hk
      simp [lookupA]
    · simp [lookupA, hk, ih, Ne.symm hk]

/-- C4: `IsTerminalState` is true exactly when the state has no
registered outgoing edges -- including a state absent from the outer map
-- in which case `GetValidEvents` is empty; and `GetValidEvents` holds
exactly the events with a registered edge from the state. -/
theorem c4_terminal_valid_events [DecidableEq S] [DecidableEq E]
    (sm : StateMachine S E) (s : S) :
    (sm.IsTerminalState s = true ↔ sm.GetValidEvents s = []) ∧
    (∀ e : E, e ∈ sm.GetValidEvents s ↔ sm.CanTransition s e = true) := by
  constructor
  · unfold StateMachine.IsTerminalState StateMachine.GetValidEvents
    cases h : lookupA sm.transitions s with
    | none => simp
    | some inner =>
      simp only
      simp [List.length_eq_zero, List.map_eq_nil_iff]
  · intro e
    unfold StateMachine.GetValidEvents StateMachine.CanTransition
    cases h : lookupA sm.transitions s with
    | none => simp
    | some inner =>
      simp only
      exact (lookupA_isSome_iff_mem_keys inner e).symm

theorem lookupEdge_addTransitions_find [DecidableEq S] [DecidableEq E]
    (sm : StateMachine S E) (ts : List (Transition S E)) (f : S) (e : E) :
    (sm.AddTransitions ts).lookupEdge f e =
      (match ts.reverse.find?
          (fun t => decide (t.From = f) && decide (t.Event = e)) with
      | some t => some t.To
      | none => sm.lookupEdge f e) := by
  induction ts generalizing sm with
  | nil => rfl
  | cons t ts ih =>
    have hstep : sm.AddTransitions (t :: ts) =
        (sm.AddTransition t.From t.Event t.To).AddTransitions ts := rfl
    rw [hstep, ih, List.reverse_cons, List.find?_append]
    cases hf : ts.reverse.find?
        (fun u => decide (u.From = f) && decide (u.Event = e)) with
    | some u => simp
    | none =>
      simp only [Option.none_or, List.find?_singleton]
      rw [lookupEdge_addTransition]
      by_cases h1 : t.From = f
      · by_cases h2 : t.Event = e
        · simp [h1, h2]
        · simp [h1, h2]
      · simp [h1]

/-- C6: `AddTransitions` is exactly one-at-a-time registration in
sequence order; when several entries share a (from, event) key the last
entry in the sequence determines the stored destination; and the
operation is a total function of the table (it cannot fail). -/
theorem c6_register_batch [DecidableEq S] [DecidableEq E]
    (sm : StateMachine S E) (ts : List (Transition S E)) :
    sm.AddTransitions ts = registerEach sm ts ∧
    (∀ f e, (sm.AddTransitions ts).lookupEdge f e =
      (match ts.reverse.find?
          (fun t => decide (t.From = f) && decide (t.Event = e)) with
      | some t => some t.To
      | none => sm.lookupEdge f e)) := by
  constructor
  · induction ts generalizing sm with
    | nil => rfl
    | cons t ts ih => exact ih (sm.AddTransition t.From t.Event t.To)
  · exact fun f e => lookupEdge_addTransitions_find sm ts f e

/-! ### `GetAllStates` membership and dedup lemmas -/

theorem mem_addState [DecidableEq S] (st : List S) (x y : S) :
    y ∈ addState st x ↔ y ∈ st ∨ y = x := by
  unfold addState
  by_cases h : x ∈ st
  · simp only [if_pos h]
    constructor
    · exact Or.inl
    · rintro (h1 | rfl)
      · exact h1
      · exact h
  · simp [if_neg h]

theorem nodup_addState [DecidableEq S] (st : List S) (x : S)
    (h : st.Nodup) : (addState st x).Nodup := by
  unfold addState
  by_cases hx : x ∈ st
  · simpa [hx]
  · rw [if_neg hx]
    exact List.Nodup.append h (List.nodup_singleton x)
      (fun a ha hb => hx ((List.mem_singleton.mp hb) ▸ ha))

theorem mem_foldl_addState [DecidableEq S] (inner : List (E × S))
    (st : List S) (y : S) :
    y ∈ inner.foldl (fun acc q => addState acc q.2) st ↔
      y ∈ st ∨ ∃ q ∈ inner, y = q.2 := by
  induction inner generalizing st with
  | nil => simp
  | cons q inner ih =>
    rw [List.foldl_cons, ih, mem_addState]
    simp only [List.mem_cons]
    constructor
    · rintro ((h | h) | ⟨q1, hq1, hy⟩)
      · exact Or.inl h
      · exact Or.inr ⟨q, Or.inl rfl, h⟩
      · exact Or.inr ⟨q1, Or.inr hq1, hy⟩
    · rintro (h | ⟨q1, (rfl | hq1), hy⟩)
      · exact Or.inl (Or.inl h)
      · exact Or.inl (Or.inr hy)
      · exact Or.inr ⟨q1, hq1, hy⟩

theorem nodup_foldl_addState [DecidableEq S] (inner : List (E × S))
    (st : List S) (h : st.Nodup) :
    (inner.foldl (fun acc q => addState acc q.2) st).Nodup := by
  induction inner generalizing st with
  | nil => exact h
  | cons q inner ih => exact ih _ (nodup_addState st q.2 h)

theorem mem_collectRow [DecidableEq S] (st : List S)
    (p : S × List (E × S)) (y : S) :
    y ∈ collectRow st p ↔ y ∈ st ∨ y = p.1 ∨ ∃ q ∈ p.2, y = q.2 := by
  unfold collectRow
  rw [mem_foldl_addState, mem_addState]
  tauto

theorem nodup_collectRow [DecidableEq S] (st : List S)
    (p : S × List (E × S)) (h : st.Nodup) : (collectRow st p).Nodup :=
  nodup_foldl_addState _ _ (nodup_addState _ _ h)

theorem mem_foldl_collectRow [DecidableEq S]
    (l : List (S × List (E × S))) (st : List S) (y : S) :
    y ∈ l.foldl collectRow st ↔
      y ∈ st ∨ ∃ p ∈ l, y = p.1 ∨ ∃ q ∈ p.2, y = q.2 := by
  induction l generalizing st with
  | nil => simp
  | cons p l ih =>
    rw [List.foldl_cons, ih, mem_collectRow]
    simp only [List.mem_cons]
    constructor
    · rintro ((h | h | h) | ⟨p1, hp1, hy⟩)
      · exact Or.inl h
      · exact Or.inr ⟨p, Or.inl rfl, Or.inl h⟩
      · exact Or.inr ⟨p, Or.inl rfl, Or.inr h⟩
      · exact Or.inr ⟨p1, Or.inr hp1, hy⟩
    · rintro (h | ⟨p1, (rfl | hp1), hy⟩)
      · exact Or.inl (Or.inl h)
      · rcases hy with h | h
        · exact Or.inl (Or.inr (Or.inl h))
        · exact Or.inl (Or.inr (Or.inr h))
      · exact Or.inr ⟨p1, hp1, hy⟩

theorem nodup_foldl_collectRow [DecidableEq S]
    (l : List (S × List (E × S))) (st : List S) (h : st.Nodup) :
    (l.foldl collectRow st).Nodup := by
  induction l generalizing st with
  | nil => exact h
  | cons p l ih => exact ih _ (nodup_collectRow st p h)

theorem mem_getAllStates_iff [DecidableEq S]
    (sm : StateMachine S E) (y : S) :
    y ∈ sm.GetAllStates ↔
      ∃ p ∈ sm.transitions, y = p.1 ∨ ∃ q ∈ p.2, y = q.2 := by
  unfold StateMachine.GetAllStates
  rw [mem_foldl_collectRow]
  simp

/-- C5: under the structural invariant maintained by the registration
API, `GetAllStates` contains exactly the states occurring as the source
or the destination of some registered edge, with no duplicates. -/
theorem c5_all_states [DecidableEq S] [DecidableEq E]
    (sm : StateMachine S E) (hwf : sm.Wf) :
    (∀ x : S, x ∈ sm.GetAllStates ↔
      (∃ e t, sm.lookupEdge x e = some t) ∨
      (∃ f e, sm.lookupEdge f e = some x)) ∧
    sm.GetAllStates.Nodup := by
  obtain ⟨hout, hin⟩ := hwf
  refine ⟨fun x => ?_, nodup_foldl_collectRow _ _ List.nodup_nil⟩
  rw [mem_getAllStates_iff]
  constructor
  · rintro ⟨⟨f1, inner⟩, hp, hx | ⟨⟨qe, qt⟩, hq, hx⟩⟩
    · subst hx
      obtain ⟨hne, hnd⟩ := hin _ hp
      obtain ⟨⟨qe, qt⟩, hq⟩ := List.exists_mem_of_ne_nil _ hne
      left
      refine ⟨qe, qt, ?_⟩
      unfold StateMachine.lookupEdge
      rw [lookupA_of_mem_nodup hout hp, Option.some_bind]
      exact lookupA_of_mem_nodup hnd hq
    · subst hx
      obtain ⟨hne, hnd⟩ := hin _ hp
      right
      refine ⟨f1, qe, ?_⟩
      unfold StateMachine.lookupEdge
      rw [lookupA_of_mem_nodup hout hp, Option.some_bind]
      exact lookupA_of_mem_nodup hnd hq
  · rintro (⟨e, t, h⟩ | ⟨f, e, h⟩)
    · unfold StateMachine.lookupEdge at h
      cases hl : lookupA sm.transitions x with
      | none =>
        rw [hl] at h
        simp at h
      | some inner => exact ⟨(x, inner), mem_of_lookupA hl, Or.inl rfl⟩
    · unfold StateMachine.lookupEdge at h
      cases hl : lookupA sm.transitions f with
      | none =>
        rw [hl] at h
        simp at h
      | some inner =>
        rw [hl, Option.some_bind] at h
        exact ⟨(f, inner), mem_of_lookupA hl,
          Or.inr ⟨(e, x), mem_of_lookupA h, rfl⟩⟩

theorem c5_witness :
    mW.GetAllStates.Nodup ∧
    ((0 : Nat) ∈ mW.GetAllStates ↔
      (∃ e t, mW.lookupEdge 0 e = some t) ∨
      (∃ f e, mW.lookupEdge f e = some 0)) := by
  have h := c5_all_states mW (by decide)
  exact ⟨h.2, h.1 0⟩
